import Mathlib

/-!
# Verification of the `MonteCarlo` portfolio simulator

Shallow embedding of the simulation engine in `src/modelling.py`
(class `MonteCarlo`).  Numpy float arithmetic is idealised as exact
rational arithmetic; the random draws of `np.random.normal` are modelled
as an explicit noise parameter, since every property under study is about
the deterministic arithmetic the engine applies to the draws.  Matrices
are Mathlib matrices over `ℚ` indexed by `Fin`.
-/

namespace MC

open Matrix

/-- numpy `np.inner` for a pair of 2-D arguments: it sums over the *last*
axis of both operands, so `np.inner(A, B) i j = ∑ k, A i k * B j k`,
which is the matrix product `A * Bᵀ`. -/
def npInner {D N M : ℕ} (A : Matrix (Fin D) (Fin N) ℚ)
    (B : Matrix (Fin M) (Fin N) ℚ) : Matrix (Fin D) (Fin M) ℚ :=
  Matrix.of fun i j => ∑ k, A i k * B j k

/-- numpy `np.inner` with a 1-D first argument and 2-D second argument:
`np.inner(w, B) i = ∑ k, w k * B i k`. -/
def npInnerVec {D N : ℕ} (w : Fin N → ℚ) (B : Matrix (Fin D) (Fin N) ℚ) :
    Fin D → ℚ :=
  fun i => ∑ k, w k * B i k

/-- Running product `y t = x 0 * ⋯ * x t`, the recursion `np.cumprod`
performs, on ℕ-indexed data. -/
def cumprodAux (x : ℕ → ℚ) : ℕ → ℚ
  | 0 => x 0
  | t + 1 => cumprodAux x t * x (t + 1)

/-- numpy `np.cumprod` on a length-`D` vector (out-of-range positions of the
lifted sequence default to `1` and are never reached). -/
def npCumprod {D : ℕ} (x : Fin D → ℚ) : Fin D → ℚ :=
  fun t => cumprodAux (fun k => if h : k < D then x ⟨k, h⟩ else 1) t.val

/-- Method `get_portfolio_weights` (src/modelling.py, line 56):
`np.full(len(stocks_list), 1/len(stocks_list))` — the constant vector
`1/N`, as a function of the asset count `N`. -/
def uniformWeights (N : ℕ) : Fin N → ℚ := fun _ => 1 / (N : ℚ)

/-- Method `returns_matrix` (line 65) with the mean-return vector `μ` abstracted:
`stock_mean_returns * np.ones((projected_days, N))`, the `D × N` matrix
every row of which is the mean-return vector. -/
def returns_matrix {N : ℕ} (μ : Fin N → ℚ) (D : ℕ) :
    Matrix (Fin D) (Fin N) ℚ :=
  Matrix.of fun _ j => μ j

/-- Line 86: `synthetic_returns = self.returns_matrix() + np.inner(rpdf,
self.l_matrix())`, with the factor `L` returned by `l_matrix` and the
noise draw `rpdf` as parameters. -/
def synthetic_returns {N : ℕ} (μ : Fin N → ℚ) (D : ℕ)
    (L : Matrix (Fin N) (Fin N) ℚ) (rpdf : Matrix (Fin D) (Fin N) ℚ) :
    Matrix (Fin D) (Fin N) ℚ :=
  returns_matrix μ D + npInner rpdf L

/-- Lines 84–88: the wealth matrix `portfolio_returns`.  Column `s` is
`np.cumprod(np.inner(weights, synthetic_returns) + 1) * starting_amount`
computed from scenario `s`'s noise draw. -/
def simulating_scenarios {N : ℕ} (D S : ℕ) (μ : Fin N → ℚ)
    (L : Matrix (Fin N) (Fin N) ℚ) (A : ℚ)
    (noise : Fin S → Matrix (Fin D) (Fin N) ℚ) : Matrix (Fin D) (Fin S) ℚ :=
  Matrix.of fun t s =>
    npCumprod
      (fun u => npInnerVec (uniformWeights N)
        (synthetic_returns μ D L (noise s)) u + 1) t * A

/-- Line 88: `final_amount[s] = portfolio_returns[-1, s]`, the last row of
the wealth matrix (requires at least one projected day). -/
def final_amount_vec {N : ℕ} (D S : ℕ) (μ : Fin N → ℚ)
    (L : Matrix (Fin N) (Fin N) ℚ) (A : ℚ)
    (noise : Fin S → Matrix (Fin D) (Fin N) ℚ) (hD : 0 < D) : Fin S → ℚ :=
  fun s =>
    simulating_scenarios D S μ L A noise ⟨D - 1, Nat.sub_lt hD Nat.one_pos⟩ s

/-- The engine's object state after `__init__` (lines 9–24): the six
instance attributes.  `stock_returns` (a pandas DataFrame, here a list of
`T` rows of `N` per-asset returns) and `final_amount` (a 1-D array of
terminal amounts) start out as `None`. -/
structure MCState where
  stocks_list : List String
  simulations : Int
  projected_days : Int
  starting_amount : ℚ
  stock_returns : Option (List (List ℚ))
  final_amount : Option (List ℚ)
deriving DecidableEq

/-- Constructor `__init__` (lines 9–24): stores the configuration unconditionally,
appending the suffix `.SA` to every ticker.  The constructor body contains
no validation of any argument. -/
def mc_init (stocks_list : List String) (simulations projected_days : Int)
    (starting_amount : ℚ) : MCState :=
  { stocks_list := stocks_list.map (fun stock => stock ++ ".SA")
    simulations := simulations
    projected_days := projected_days
    starting_amount := starting_amount
    stock_returns := none
    final_amount := none }

/-- The ticker list `pulling_stock_data` (line 35) hands to the
market-data provider: `yf.download(self.stocks_list, ...)`. -/
def pulling_request (st : MCState) : List String := st.stocks_list

/-- Method `get_portfolio_weights` (line 56) read off the object state:
`np.full(len(self.stocks_list), 1/len(self.stocks_list))` as a list. -/
def get_portfolio_weights (st : MCState) : List ℚ :=
  List.replicate st.stocks_list.length (1 / (st.stocks_list.length : ℚ))

/-- Expression `stock_returns.mean(axis=0)` (line 64): the per-asset mean return of a
`T × N` historical return table. -/
def stockMeanReturns {T N : ℕ} (R : Matrix (Fin T) (Fin N) ℚ) : Fin N → ℚ :=
  fun j => (∑ t, R t j) / (T : ℚ)

/-- pandas `DataFrame.cov()` (line 48): the unbiased (`ddof = 1`) sample
covariance matrix of the return table. -/
def sampleCov {T N : ℕ} (R : Matrix (Fin T) (Fin N) ℚ) :
    Matrix (Fin N) (Fin N) ℚ :=
  Matrix.of fun i j =>
    (∑ t, (R t i - stockMeanReturns R i) * (R t j - stockMeanReturns R j)) /
      ((T : ℚ) - 1)

/-- Method `covariance_matrix` (lines 40–48): raises `ValueError` when
`self.stock_returns is None` and otherwise returns
`self.stock_returns.cov()`.  No other check is performed. -/
def covariance_matrix {T N : ℕ}
    (stock_returns : Option (Matrix (Fin T) (Fin N) ℚ)) :
    Except String (Matrix (Fin N) (Fin N) ℚ) :=
  match stock_returns with
  | none => .error "Stock returns not available. Call pulling_stock_data() first."
  | some R => .ok (sampleCov R)

/-- Linear interpolation of a list at virtual position `p`:
`s ⌊p⌋ + (p - ⌊p⌋) * (s (⌊p⌋+1) - s ⌊p⌋)`, with out-of-range reads
defaulting to `0` (for positions in `[0, length - 1]` such a read only
occurs multiplied by a zero fraction). -/
def interpAt (s : List ℚ) (p : ℚ) : ℚ :=
  s.getD ⌊p⌋.toNat 0 +
    (p - (⌊p⌋ : ℚ)) * (s.getD (⌊p⌋.toNat + 1) 0 - s.getD ⌊p⌋.toNat 0)

/-- Function `np.percentile(a, q)` with numpy's default linear-interpolation
method: sort the data and interpolate linearly between the order
statistics around the virtual index `q/100 * (n-1)`.  numpy raises on a
zero-size array, modelled by `none`. -/
def npPercentile (xs : List ℚ) (q : ℚ) : Option ℚ :=
  if xs.isEmpty then none
  else
    some (interpAt (List.insertionSort (fun a b => a ≤ b) xs)
      (q / 100 * ((xs.length : ℚ) - 1)))

/-- The quantities `performance_evaluation` (lines 119–127) reports. -/
structure PerfReport where
  invested_amount : ℚ
  selected_portfolio : List String
  profitable_scenarios : ℚ
  median_amount : ℚ
  perc_95_amount : ℚ
  perc_99_amount : ℚ
deriving DecidableEq

/-- Method `performance_evaluation` (lines 107–127): raises `ValueError` when
`self.final_amount is None`; otherwise computes `np.percentile` of the
terminal amounts at 1, 5 and 50 (each of which raises when the array has
size zero, i.e. when the run used `simulations = 0`) and the percentage
of scenarios whose final amount strictly exceeds the starting amount. -/
def performance_evaluation (st : MCState) : Except String PerfReport :=
  match st.final_amount with
  | none => .error "Final amounts not available. Call simulating_scenarios() first."
  | some xs =>
    match npPercentile xs 1, npPercentile xs 5, npPercentile xs 50 with
    | some p99, some p95, some p50 =>
      .ok { invested_amount := st.starting_amount
            selected_portfolio := st.stocks_list
            profitable_scenarios :=
              ((xs.countP (fun x => decide (st.starting_amount < x)) : ℚ) /
                (xs.length : ℚ)) * 100
            median_amount := p50
            perc_95_amount := p95
            perc_99_amount := p99 }
    | _, _, _ => .error "zero-size array to reduction operation"

instance exceptDecidableEq {ε α : Type} [DecidableEq ε] [DecidableEq α] :
    DecidableEq (Except ε α) := fun a b =>
  match a, b with
  | .error e1, .error e2 => decidable_of_iff (e1 = e2) (by simp)
  | .ok v1, .ok v2 => decidable_of_iff (v1 = v2) (by simp)
  | .error _, .ok _ => isFalse (by simp)
  | .ok _, .error _ => isFalse (by simp)

/-- A matrix is lower triangular when every entry strictly above the
diagonal vanishes. -/
def lowerTriangular {α : Type} [Zero α] {n : ℕ}
    (L : Matrix (Fin n) (Fin n) α) : Prop :=
  ∀ i j : Fin n, i < j → L i j = 0

/-- Positive definiteness of a rational matrix: every nonzero vector has
strictly positive quadratic form. -/
def posDefQ {n : ℕ} (A : Matrix (Fin n) (Fin n) ℚ) : Prop :=
  ∀ x : Fin n → ℚ, x ≠ 0 → 0 < Matrix.dotProduct x (A.mulVec x)

/-- The pivot recursion underlying the Cholesky factorisation
`LA.cholesky` performs (line 73), in unit-lower-triangular `L·D·Lᵀ` form
so that it stays inside `ℚ`: at each step the leading pivot `A 0 0` must
be strictly positive (LAPACK `potrf` fails — numpy raises
`LinAlgError: Matrix is not positive definite` — exactly when some pivot
of this recursion is non-positive), and the recursion continues on the
Schur complement.  On success the Cholesky factor numpy returns is
`L · √diag(d)`, represented here by the pair `(L, d)`. -/
def ldl : (n : ℕ) → Matrix (Fin n) (Fin n) ℚ →
    Option (Matrix (Fin n) (Fin n) ℚ × (Fin n → ℚ))
  | 0, _ => some (1, fun i => i.elim0)
  | n + 1, A =>
    if A 0 0 ≤ 0 then none
    else
      match ldl n (Matrix.of fun i j =>
          A i.succ j.succ - A i.succ 0 * A j.succ 0 / A 0 0) with
      | none => none
      | some (L, d) =>
        some (Matrix.of (Fin.cons (Fin.cons 1 (fun _ => 0))
            (fun i => Fin.cons (A i.succ 0 / A 0 0) (fun j => L i j))),
          Fin.cons (A 0 0) d)

/-- Method `l_matrix` (lines 67–73): `LA.cholesky(self.covariance_matrix())`.
The `ValueError` of `covariance_matrix` propagates; the `LinAlgError`
numpy's factorisation raises on a matrix that is not positive definite is
the `ldl` failure case; on success the factorisation data `(L, d)` is
returned (the numpy factor being `L · √diag(d)`). -/
def l_matrix {T N : ℕ}
    (stock_returns : Option (Matrix (Fin T) (Fin N) ℚ)) :
    Except String (Matrix (Fin N) (Fin N) ℚ × (Fin N → ℚ)) :=
  match covariance_matrix stock_returns with
  | .error e => .error e
  | .ok C =>
    match ldl N C with
    | none => .error "Matrix is not positive definite"
    | some Ld => .ok Ld

theorem cumprodAux_eq_prod (x : ℕ → ℚ) (t : ℕ) :
    cumprodAux x t = ∏ k in Finset.range (t + 1), x k := by
  induction t with
  | zero => simp [cumprodAux]
  | succ t ih =>
    rw [cumprodAux, ih]
    exact (Finset.prod_range_succ x (t + 1)).symm

theorem npCumprod_eq_prod_Iic {D : ℕ} (x : Fin D → ℚ) (t : Fin D) :
    npCumprod x t = ∏ k in Finset.Iic t, x k := by
  rw [npCumprod, cumprodAux_eq_prod]
  refine Finset.prod_bij'
    (fun (k : ℕ) (hk : k ∈ Finset.range (t.val + 1)) =>
      (⟨k, lt_of_le_of_lt (Nat.lt_succ_iff.mp (Finset.mem_range.mp hk)) t.isLt⟩ : Fin D))
    (fun (k : Fin D) (_ : k ∈ Finset.Iic t) => (k.val : ℕ)) ?_ ?_ ?_ ?_ ?_
  · intro a ha
    exact Finset.mem_Iic.mpr (Fin.mk_le_mk.mpr (Nat.lt_succ_iff.mp (Finset.mem_range.mp ha)))
  · intro a ha
    exact Finset.mem_range.mpr (Nat.lt_succ_iff.mpr (Fin.le_def.mp (Finset.mem_Iic.mp ha)))
  · intro a ha
    rfl
  · intro a ha
    rfl
  · intro a ha
    have hlt : a < D := lt_of_le_of_lt (Nat.lt_succ_iff.mp (Finset.mem_range.mp ha)) t.isLt
    simp [hlt]

/-- C1: For every scenario `s` the wealth trajectory written by
`simulating_scenarios` into column `s` satisfies
`wealth_t = A · Π_{k=1..t} (1 + portfolio_return_k)` for every day `t`
(0-based: the product runs over exactly the days `k ≤ t`), where
`portfolio_return_k` is the weighted daily portfolio return
`np.inner(weights, synthetic_returns) k`: a running cumulative product
over exactly the first `t` daily returns, not a cumulative sum. -/
theorem simulating_scenarios_wealth_eq_cumprod {N : ℕ} (D S : ℕ)
    (μ : Fin N → ℚ) (L : Matrix (Fin N) (Fin N) ℚ) (A : ℚ)
    (noise : Fin S → Matrix (Fin D) (Fin N) ℚ) (s : Fin S) (t : Fin D) :
    simulating_scenarios D S μ L A noise t s =
      A * ∏ k in Finset.Iic t,
        (1 + npInnerVec (uniformWeights N) (synthetic_returns μ D L (noise s)) k) := by
  show npCumprod _ t * A = _
  rw [npCumprod_eq_prod_Iic, mul_comm]
  refine congrArg (fun z => A * z) (Finset.prod_congr rfl ?_)
  intro k _
  rw [add_comm]

/-- C2: For every scenario, the synthetic daily-returns matrix the
simulator builds equals `drift_matrix + noise · Lᵗ`, where the drift
matrix replicates the mean-return vector `μ` across all `D` rows, `·` is
the matrix product and `Lᵗ` the transpose of the factor `L`. -/
theorem synthetic_returns_eq_drift_add_noise_mul_Lt {N D : ℕ}
    (μ : Fin N → ℚ) (L : Matrix (Fin N) (Fin N) ℚ)
    (rpdf : Matrix (Fin D) (Fin N) ℚ) :
    synthetic_returns μ D L rpdf =
      (Matrix.of fun (_ : Fin D) (j : Fin N) => μ j) + rpdf * Lᵀ := by
  ext i j
  simp [synthetic_returns, returns_matrix, npInner, Matrix.mul_apply,
    Matrix.transpose_apply]

theorem npPercentile_of_ne_nil (xs : List ℚ) (hxs : xs ≠ []) (q : ℚ) :
    npPercentile xs q =
      some (interpAt (List.insertionSort (fun a b => a ≤ b) xs)
        (q / 100 * ((xs.length : ℚ) - 1))) := by
  rw [npPercentile, if_neg]
  simpa using hxs

/-- On a non-empty terminal-amount vector, `performance_evaluation`
returns exactly the record built from the three percentiles and the
strict-profit percentage. -/
theorem performance_evaluation_eq_ok (st : MCState) (xs : List ℚ)
    (hfa : st.final_amount = some xs) (hxs : xs ≠ []) :
    performance_evaluation st = .ok
      { invested_amount := st.starting_amount
        selected_portfolio := st.stocks_list
        profitable_scenarios :=
          ((xs.countP (fun x => decide (st.starting_amount < x)) : ℚ) /
            (xs.length : ℚ)) * 100
        median_amount := (npPercentile xs 50).getD 0
        perc_95_amount := (npPercentile xs 5).getD 0
        perc_99_amount := (npPercentile xs 1).getD 0 } := by
  simp only [performance_evaluation, hfa, npPercentile_of_ne_nil xs hxs,
    Option.getD_some]

theorem performance_evaluation_ok_selected_portfolio (st : MCState)
    (r : PerfReport) (hr : performance_evaluation st = .ok r) :
    r.selected_portfolio = st.stocks_list := by
  rcases hfa : st.final_amount with _ | xs
  · rw [performance_evaluation, hfa] at hr
    cases hr
  · rcases eq_or_ne xs [] with rfl | hxs
    · rw [performance_evaluation, hfa] at hr
      simp [npPercentile] at hr
    · rw [performance_evaluation_eq_ok st xs hfa hxs] at hr
      cases hr
      rfl

/-- C5 counterexample: The claim "construction fails with
`InvalidConfigurationError` on invalid configuration" is false: with an
empty asset list, zero simulations, zero projected days and zero starting
amount the constructor succeeds and returns the stored state — `__init__`
(lines 9–24) contains no validation and no raise statement at all. -/
theorem mc_init_accepts_invalid_config :
    mc_init [] 0 0 0 =
      { stocks_list := [], simulations := 0, projected_days := 0,
        starting_amount := 0, stock_returns := none, final_amount := none } :=
  rfl

/-- C5 amended: The constructor performs no boundary validation:
every configuration — in particular one with non-positive simulations,
non-positive projected days, a non-positive starting amount, an empty
asset list or a duplicated asset list — is accepted, and the state is
stored unchanged apart from the `.SA` suffix added to each ticker, with
`stock_returns` and `final_amount` initialised to `None`. -/
theorem mc_init_no_validation (stocks_list : List String)
    (simulations projected_days : Int) (starting_amount : ℚ)
    (h : simulations ≤ 0 ∨ projected_days ≤ 0 ∨ starting_amount ≤ 0 ∨
      stocks_list = [] ∨ ¬ stocks_list.Nodup) :
    mc_init stocks_list simulations projected_days starting_amount =
      { stocks_list := stocks_list.map (fun stock => stock ++ ".SA")
        simulations := simulations
        projected_days := projected_days
        starting_amount := starting_amount
        stock_returns := none
        final_amount := none } :=
  rfl

/-- Witness for `mc_init_no_validation` at the invalid configuration
`simulations = 0`. -/
theorem mc_init_no_validation_witness :
    ((0 : Int) ≤ 0 ∨ (1 : Int) ≤ 0 ∨ (1 : ℚ) ≤ 0 ∨ (["X"] : List String) = [] ∨
        ¬ (["X"] : List String).Nodup) ∧
      mc_init ["X"] 0 1 1 =
        { stocks_list := ["X.SA"], simulations := 0, projected_days := 1,
          starting_amount := 1, stock_returns := none, final_amount := none } :=
  ⟨Or.inl le_rfl, mc_init_no_validation ["X"] 0 1 1 (Or.inl le_rfl)⟩

/-- C10: The constructor stores the asset list with `.SA` appended
to every identifier, preserving order and length, and the downstream
operations consume the suffixed identifiers: the data download receives
them, the portfolio weights are built from the suffixed list, and the
performance report displays them. -/
theorem mc_init_suffixed_tickers_downstream (stocks_list : List String)
    (simulations projected_days : Int) (starting_amount : ℚ) :
    (mc_init stocks_list simulations projected_days starting_amount).stocks_list =
        stocks_list.map (fun stock => stock ++ ".SA") ∧
      (mc_init stocks_list simulations projected_days starting_amount).stocks_list.length =
        stocks_list.length ∧
      (∀ i (hi : i < stocks_list.length),
        (mc_init stocks_list simulations projected_days starting_amount).stocks_list.get
            ⟨i, by simpa [mc_init] using hi⟩ =
          stocks_list.get ⟨i, hi⟩ ++ ".SA") ∧
      pulling_request (mc_init stocks_list simulations projected_days starting_amount) =
        stocks_list.map (fun stock => stock ++ ".SA") ∧
      get_portfolio_weights (mc_init stocks_list simulations projected_days starting_amount) =
        List.replicate (stocks_list.map (fun stock => stock ++ ".SA")).length
          (1 / ((stocks_list.map (fun stock => stock ++ ".SA")).length : ℚ)) ∧
      ∀ fa r, performance_evaluation
          { mc_init stocks_list simulations projected_days starting_amount with
            final_amount := fa } = .ok r →
        r.selected_portfolio = stocks_list.map (fun stock => stock ++ ".SA") := by
  refine ⟨rfl, by simp [mc_init], ?_, rfl, rfl, ?_⟩
  · intro i hi
    simp [mc_init]
  · intro fa r hr
    exact performance_evaluation_ok_selected_portfolio _ r hr

/-- Witness for `mc_init_suffixed_tickers_downstream` on a concrete
two-ticker configuration. -/
theorem mc_init_suffixed_tickers_downstream_witness :
    (mc_init ["PETR4", "VALE3"] 1000 252 100000).stocks_list =
        ["PETR4.SA", "VALE3.SA"] ∧
      (mc_init ["PETR4", "VALE3"] 1000 252 100000).stocks_list.length = 2 ∧
      ∃ r, performance_evaluation
          { mc_init ["PETR4", "VALE3"] 1000 252 100000 with
            final_amount := some [1] } = .ok r ∧
        r.selected_portfolio = ["PETR4.SA", "VALE3.SA"] := by
  have h := mc_init_suffixed_tickers_downstream ["PETR4", "VALE3"] 1000 252 100000
  have hev := performance_evaluation_eq_ok
    { mc_init ["PETR4", "VALE3"] 1000 252 100000 with final_amount := some [1] }
    [1] rfl (by simp)
  exact ⟨h.1, by rw [h.2.1]; rfl, ⟨_, hev, h.2.2.2.2.2 (some [1]) _ hev⟩⟩

/-- C3 counterexample: The claim "the return-statistics step fails
with `InsufficientDataError` whenever `T ≤ N` or some asset has zero
variance" is false: on the table `[[1, 5], [1, 7]]` — `T = 2 ≤ N = 2`
observations, and the first asset's return series is constant (zero
variance) — `covariance_matrix` succeeds and returns the sample
covariance matrix instead of raising. -/
theorem covariance_matrix_accepts_insufficient_data :
    covariance_matrix (some !![(1 : ℚ), 5; 1, 7]) = .ok !![(0 : ℚ), 0; 0, 2] := by
  show Except.ok (sampleCov !![(1 : ℚ), 5; 1, 7]) = _
  have : sampleCov !![(1 : ℚ), 5; 1, 7] = !![(0 : ℚ), 0; 0, 2] := by
    ext i j
    fin_cases i <;> fin_cases j <;>
      simp [sampleCov, stockMeanReturns, Fin.sum_univ_succ] <;> norm_num
  rw [this]

/-- C3 amended: The return-statistics step performs no data
validation: it fails only when the historical returns are unavailable
(`stock_returns is None`, a `ValueError`); given any available return
table — in particular one with `T ≤ N` observations or with a
zero-variance asset — it returns the unbiased sample covariance matrix
(the mean vector is read separately by `returns_matrix`, line 64). -/
theorem covariance_matrix_no_data_validation {T N : ℕ}
    (R : Matrix (Fin T) (Fin N) ℚ)
    (h : T ≤ N ∨ ∃ j, sampleCov R j j = 0) :
    covariance_matrix
        (none : Option (Matrix (Fin T) (Fin N) ℚ)) =
          .error "Stock returns not available. Call pulling_stock_data() first." ∧
      covariance_matrix (some R) = .ok (sampleCov R) :=
  ⟨rfl, rfl⟩

/-- Witness for `covariance_matrix_no_data_validation` at the `T = 2 ≤ N = 2`
table `[[1, 5], [1, 7]]`. -/
theorem covariance_matrix_no_data_validation_witness :
    (2 ≤ 2 ∨ ∃ j, sampleCov !![(1 : ℚ), 5; 1, 7] j j = 0) ∧
      covariance_matrix (some !![(1 : ℚ), 5; 1, 7]) =
        .ok (sampleCov !![(1 : ℚ), 5; 1, 7]) :=
  ⟨Or.inl le_rfl,
    (covariance_matrix_no_data_validation !![(1 : ℚ), 5; 1, 7] (Or.inl le_rfl)).2⟩

/-- C6: The performance summariser fails when the terminal-wealth
vector is empty (`S = 0`: the `np.percentile` call raises on a zero-size
array) — and likewise when summarisation is requested before any
simulation ran at all, while `final_amount` is still `None` — and for a
non-empty vector it returns the 1st, 5th and 50th percentiles of terminal
wealth together with the profitable fraction. -/
theorem performance_evaluation_fails_on_empty (st : MCState) :
    (st.final_amount = some [] → ∃ e, performance_evaluation st = .error e) ∧
      (st.final_amount = none → ∃ e, performance_evaluation st = .error e) ∧
      ∀ xs, st.final_amount = some xs → xs ≠ [] →
        ∃ r, performance_evaluation st = .ok r ∧
          npPercentile xs 1 = some r.perc_99_amount ∧
          npPercentile xs 5 = some r.perc_95_amount ∧
          npPercentile xs 50 = some r.median_amount ∧
          r.profitable_scenarios =
            ((xs.countP (fun x => decide (st.starting_amount < x)) : ℚ) /
              (xs.length : ℚ)) * 100 := by
  refine ⟨?_, ?_, ?_⟩
  · intro hfa
    refine ⟨"zero-size array to reduction operation", ?_⟩
    simp [performance_evaluation, hfa, npPercentile]
  · intro hfa
    exact ⟨_, by rw [performance_evaluation, hfa]⟩
  · intro xs hfa hxs
    refine ⟨_, performance_evaluation_eq_ok st xs hfa hxs, ?_, ?_, ?_, rfl⟩
    all_goals simp [npPercentile_of_ne_nil xs hxs]

/-- Witness for `performance_evaluation_fails_on_empty`: with terminal
amounts `[]` the summariser fails, and with terminal amounts `[50]` it
succeeds. -/
theorem performance_evaluation_fails_on_empty_witness :
    (∃ e, performance_evaluation
        { stocks_list := ["A.SA"], simulations := 0, projected_days := 1,
          starting_amount := 100, stock_returns := none,
          final_amount := some [] } = .error e) ∧
      ∃ r, performance_evaluation
          { stocks_list := ["A.SA"], simulations := 1, projected_days := 1,
            starting_amount := 100, stock_returns := none,
            final_amount := some [50] } = .ok r :=
  ⟨(performance_evaluation_fails_on_empty _).1 rfl,
    match (performance_evaluation_fails_on_empty
        { stocks_list := ["A.SA"], simulations := 1, projected_days := 1,
          starting_amount := 100, stock_returns := none,
          final_amount := some [50] }).2.2 [50] rfl (by simp) with
    | ⟨r, hr, _⟩ => ⟨r, hr⟩⟩

/-- C7: The profit probability reported by `performance_evaluation`
equals the fraction of scenarios whose terminal wealth is *strictly*
greater than `starting_amount`, times 100; in particular, when every
terminal amount equals the starting amount exactly, the reported
profitable percentage is 0. -/
theorem profitable_fraction_is_strict (st : MCState) (xs : List ℚ)
    (r : PerfReport) (hfa : st.final_amount = some xs)
    (hr : performance_evaluation st = .ok r) :
    r.profitable_scenarios =
        ((xs.countP (fun x => decide (st.starting_amount < x)) : ℚ) /
          (xs.length : ℚ)) * 100 ∧
      ((∀ x ∈ xs, x = st.starting_amount) → r.profitable_scenarios = 0) := by
  have hxs : xs ≠ [] := by
    rintro rfl
    rw [performance_evaluation, hfa] at hr
    simp [npPercentile] at hr
  rw [performance_evaluation_eq_ok st xs hfa hxs] at hr
  cases hr
  refine ⟨rfl, ?_⟩
  intro hall
  have hcount : xs.countP (fun x => decide (st.starting_amount < x)) = 0 := by
    rw [List.countP_eq_zero]
    intro a ha
    simp [hall a ha]
  show ((xs.countP (fun x => decide (st.starting_amount < x)) : ℚ) /
    (xs.length : ℚ)) * 100 = 0
  rw [hcount]
  simp

/-- Witness for `profitable_fraction_is_strict`: all terminal amounts
equal to the starting amount give a profitable percentage of 0. -/
theorem profitable_fraction_is_strict_witness :
    ∃ r, performance_evaluation
        { stocks_list := ["A.SA"], simulations := 2, projected_days := 1,
          starting_amount := 100, stock_returns := none,
          final_amount := some [100, 100] } = .ok r ∧
      r.profitable_scenarios = 0 := by
  have hev := performance_evaluation_eq_ok
    { stocks_list := ["A.SA"], simulations := 2, projected_days := 1,
      starting_amount := 100, stock_returns := none,
      final_amount := some [100, 100] } [100, 100] rfl (by simp)
  exact ⟨_, hev,
    (profitable_fraction_is_strict _ [100, 100] _ rfl hev).2 (by decide)⟩

theorem sorted_getD_mono (s : List ℚ) (hs : List.Sorted (fun a b => a ≤ b) s)
    {i j : ℕ} (hij : i ≤ j) (hj : j < s.length) : s.getD i 0 ≤ s.getD j 0 := by
  have hi : i < s.length := lt_of_le_of_lt hij hj
  rw [List.getD_eq_get s 0 hi, List.getD_eq_get s 0 hj]
  rcases Nat.lt_or_ge i j with h | h
  · exact hs.rel_get_of_lt (Fin.mk_lt_mk.mpr h)
  · have hij2 : i = j := le_antisymm hij h
    subst hij2
    exact le_rfl

theorem interpAt_mono (s : List ℚ) (hs : List.Sorted (fun a b => a ≤ b) s)
    {p q : ℚ} (hp0 : 0 ≤ p) (hpq : p ≤ q) (hq : q ≤ (s.length : ℚ) - 1) :
    interpAt s p ≤ interpAt s q := by
  have hq0 : 0 ≤ q := le_trans hp0 hpq
  have hn1 : (1 : ℚ) ≤ (s.length : ℚ) := by linarith
  have hn : 1 ≤ s.length := by exact_mod_cast hn1
  have hIp0 : (0 : ℤ) ≤ ⌊p⌋ := Int.floor_nonneg.mpr hp0
  have hIq0 : (0 : ℤ) ≤ ⌊q⌋ := Int.floor_nonneg.mpr hq0
  have hIpq : ⌊p⌋ ≤ ⌊q⌋ := Int.floor_le_floor hpq
  have hIqb : ⌊q⌋ ≤ (s.length : ℤ) - 1 := by
    have hcast : ((⌊q⌋ : ℚ)) ≤ (s.length : ℚ) - 1 := le_trans (Int.floor_le q) hq
    exact_mod_cast hcast
  have hic : ((⌊p⌋.toNat : ℤ)) = ⌊p⌋ := Int.toNat_of_nonneg hIp0
  have hjc : ((⌊q⌋.toNat : ℤ)) = ⌊q⌋ := Int.toNat_of_nonneg hIq0
  have hpc : ((⌊p⌋ : ℚ)) = ((⌊p⌋.toNat : ℕ) : ℚ) := by exact_mod_cast hic.symm
  have hqc : ((⌊q⌋ : ℚ)) = ((⌊q⌋.toNat : ℕ) : ℚ) := by exact_mod_cast hjc.symm
  have hγp0 : 0 ≤ p - (⌊p⌋ : ℚ) := sub_nonneg.mpr (Int.floor_le p)
  have hγq0 : 0 ≤ q - (⌊q⌋ : ℚ) := sub_nonneg.mpr (Int.floor_le q)
  have hγp1 : p - (⌊p⌋ : ℚ) < 1 := by
    have := Int.lt_floor_add_one p; linarith
  have hγq1 : q - (⌊q⌋ : ℚ) < 1 := by
    have := Int.lt_floor_add_one q; linarith
  have hjn : ⌊q⌋.toNat < s.length := by omega
  rw [interpAt, interpAt]
  rcases eq_or_lt_of_le hIpq with heq | hlt
  · -- same segment
    have hije : ⌊p⌋.toNat = ⌊q⌋.toNat := by rw [heq]
    have hfle : ((⌊p⌋ : ℚ)) = ((⌊q⌋ : ℚ)) := by exact_mod_cast heq
    have hγpq : p - (⌊p⌋ : ℚ) ≤ q - (⌊q⌋ : ℚ) := by rw [← hfle]; linarith
    rw [hije]
    rcases Nat.lt_or_ge (⌊q⌋.toNat + 1) s.length with hi1 | hi1
    · have hΔ : s.getD ⌊q⌋.toNat 0 ≤ s.getD (⌊q⌋.toNat + 1) 0 :=
        sorted_getD_mono s hs (Nat.le_succ _) hi1
      have hmul := mul_le_mul_of_nonneg_right hγpq (sub_nonneg.mpr hΔ)
      linarith
    · -- the index is length - 1, which forces p = q
      have hjeq : ⌊q⌋.toNat = s.length - 1 := by omega
      have hjq : ((⌊q⌋.toNat : ℕ) : ℚ) = (s.length : ℚ) - 1 := by
        rw [hjeq, Nat.cast_sub hn, Nat.cast_one]
      have hpl : ((s.length : ℚ) - 1) ≤ p := by
        have hfl : ((⌊p⌋ : ℚ)) ≤ p := Int.floor_le p
        rw [hpc, hije, hjq] at hfl
        exact hfl
      have hpq2 : p = q := le_antisymm hpq (by linarith)
      rw [hpq2]
  · -- distinct segments
    have hijlt : ⌊p⌋.toNat < ⌊q⌋.toNat := by omega
    have hij1 : ⌊p⌋.toNat + 1 ≤ ⌊q⌋.toNat := hijlt
    have hi1n : ⌊p⌋.toNat + 1 < s.length := lt_of_le_of_lt hij1 hjn
    have hΔp : s.getD ⌊p⌋.toNat 0 ≤ s.getD (⌊p⌋.toNat + 1) 0 :=
      sorted_getD_mono s hs (Nat.le_succ _) hi1n
    have step1 : s.getD ⌊p⌋.toNat 0 +
        (p - (⌊p⌋ : ℚ)) * (s.getD (⌊p⌋.toNat + 1) 0 - s.getD ⌊p⌋.toNat 0) ≤
          s.getD (⌊p⌋.toNat + 1) 0 := by
      have hmul := mul_le_mul_of_nonneg_right (le_of_lt hγp1)
        (sub_nonneg.mpr hΔp)
      linarith
    have step2 : s.getD (⌊p⌋.toNat + 1) 0 ≤ s.getD ⌊q⌋.toNat 0 :=
      sorted_getD_mono s hs hij1 hjn
    have step3 : s.getD ⌊q⌋.toNat 0 ≤ s.getD ⌊q⌋.toNat 0 +
        (q - (⌊q⌋ : ℚ)) * (s.getD (⌊q⌋.toNat + 1) 0 - s.getD ⌊q⌋.toNat 0) := by
      rcases Nat.lt_or_ge (⌊q⌋.toNat + 1) s.length with hj1 | hj1
      · have hΔq : s.getD ⌊q⌋.toNat 0 ≤ s.getD (⌊q⌋.toNat + 1) 0 :=
          sorted_getD_mono s hs (Nat.le_succ _) hj1
        have hmul := mul_nonneg hγq0 (sub_nonneg.mpr hΔq)
        linarith
      · -- the index is length - 1, which forces the fraction to vanish
        have hjeq : ⌊q⌋.toNat = s.length - 1 := by omega
        have hjq : ((⌊q⌋.toNat : ℕ) : ℚ) = (s.length : ℚ) - 1 := by
          rw [hjeq, Nat.cast_sub hn, Nat.cast_one]
        have hγ0 : q - (⌊q⌋ : ℚ) = 0 := by
          have hfl : ((⌊q⌋ : ℚ)) ≤ q := Int.floor_le q
          rw [hqc, hjq] at hfl
          rw [hqc, hjq]
          linarith
        rw [hγ0]
        simp
    linarith

theorem npPercentile_le_npPercentile (xs : List ℚ) (hxs : xs ≠ [])
    {q1 q2 v1 v2 : ℚ} (h0 : 0 ≤ q1) (h12 : q1 ≤ q2) (h100 : q2 ≤ 100)
    (hv1 : npPercentile xs q1 = some v1) (hv2 : npPercentile xs q2 = some v2) :
    v1 ≤ v2 := by
  rw [npPercentile_of_ne_nil xs hxs] at hv1 hv2
  cases hv1
  cases hv2
  have hsorted : List.Sorted (fun a b => a ≤ b)
      (List.insertionSort (fun a b => a ≤ b) xs) :=
    List.sorted_insertionSort _ xs
  have hlen : (List.insertionSort (fun a b => a ≤ b) xs).length = xs.length :=
    List.length_insertionSort _ xs
  have hxslen : 1 ≤ xs.length := by
    cases xs with
    | nil => exact absurd rfl hxs
    | cons a l => exact Nat.succ_le_succ (Nat.zero_le _)
  have hlen1 : (0 : ℚ) ≤ (xs.length : ℚ) - 1 := by
    have : (1 : ℚ) ≤ (xs.length : ℚ) := by exact_mod_cast hxslen
    linarith
  apply interpAt_mono _ hsorted
  · exact mul_nonneg (by positivity) hlen1
  · exact mul_le_mul_of_nonneg_right (by linarith) hlen1
  · rw [hlen]
    have hd1 : q2 / 100 ≤ 1 := by linarith
    calc q2 / 100 * ((xs.length : ℚ) - 1) ≤ 1 * ((xs.length : ℚ) - 1) :=
          mul_le_mul_of_nonneg_right hd1 hlen1
      _ = (xs.length : ℚ) - 1 := one_mul _

/-- C9: For every non-empty terminal-wealth vector, the three
percentiles computed with linear interpolation between order statistics
are monotone: 1st percentile ≤ 5th percentile ≤ 50th percentile, i.e. the
reported 99%-confidence amount is at most the 95%-confidence amount,
which is at most the median. -/
theorem report_percentiles_monotone (st : MCState) (xs : List ℚ)
    (hfa : st.final_amount = some xs) (hxs : xs ≠ []) :
    ∃ r, performance_evaluation st = .ok r ∧
      r.perc_99_amount ≤ r.perc_95_amount ∧
      r.perc_95_amount ≤ r.median_amount := by
  refine ⟨_, performance_evaluation_eq_ok st xs hfa hxs, ?_, ?_⟩
  · show (npPercentile xs 1).getD 0 ≤ (npPercentile xs 5).getD 0
    rw [npPercentile_of_ne_nil xs hxs 1, npPercentile_of_ne_nil xs hxs 5,
      Option.getD_some, Option.getD_some]
    exact npPercentile_le_npPercentile xs hxs (by norm_num) (by norm_num)
      (by norm_num) (npPercentile_of_ne_nil xs hxs 1)
      (npPercentile_of_ne_nil xs hxs 5)
  · show (npPercentile xs 5).getD 0 ≤ (npPercentile xs 50).getD 0
    rw [npPercentile_of_ne_nil xs hxs 5, npPercentile_of_ne_nil xs hxs 50,
      Option.getD_some, Option.getD_some]
    exact npPercentile_le_npPercentile xs hxs (by norm_num) (by norm_num)
      (by norm_num) (npPercentile_of_ne_nil xs hxs 5)
      (npPercentile_of_ne_nil xs hxs 50)

/-- Witness for `report_percentiles_monotone` on the terminal amounts
`[3, 1, 2]`. -/
theorem report_percentiles_monotone_witness :
    ∃ r, performance_evaluation
        { stocks_list := ["A.SA"], simulations := 3, projected_days := 1,
          starting_amount := 100, stock_returns := none,
          final_amount := some [3, 1, 2] } = .ok r ∧
      r.perc_99_amount ≤ r.perc_95_amount ∧
      r.perc_95_amount ≤ r.median_amount :=
  report_percentiles_monotone _ [3, 1, 2] rfl (by simp)

theorem mulDiagMulT_apply {α : Type} [CommRing α] {n : ℕ}
    (M : Matrix (Fin n) (Fin n) α) (e : Fin n → α) (i j : Fin n) :
    (M * Matrix.diagonal e * Mᵀ) i j = ∑ k, M i k * e k * M j k := by
  rw [Matrix.mul_apply]
  refine Finset.sum_congr rfl ?_
  intro k _
  rw [Matrix.mul_diagonal, Matrix.transpose_apply]

/-- Correctness of the `ldl` pivot recursion: on success it yields a
unit-lower-triangular factor, strictly positive pivots, and an exact
`L·D·Lᵀ` decomposition of the (symmetric) input. -/
theorem ldl_spec : ∀ (n : ℕ) (A L : Matrix (Fin n) (Fin n) ℚ) (d : Fin n → ℚ),
    A.IsSymm → ldl n A = some (L, d) →
    (∀ i, L i i = 1) ∧ lowerTriangular L ∧ (∀ i, 0 < d i) ∧
      L * Matrix.diagonal d * Lᵀ = A := by
  intro n
  induction n with
  | zero =>
    intro A L d _ h
    simp only [ldl, Option.some.injEq, Prod.mk.injEq] at h
    obtain ⟨hL, hd2⟩ := h
    subst hL
    subst hd2
    refine ⟨fun i => i.elim0, fun i => i.elim0, fun i => i.elim0, ?_⟩
    ext i j
    exact i.elim0
  | succ n ih =>
    intro A L d hA h
    simp only [ldl] at h
    by_cases ha : A 0 0 ≤ 0
    · rw [if_pos ha] at h
      cases h
    rw [if_neg ha] at h
    push_neg at ha
    have ha0 : A 0 0 ≠ 0 := ne_of_gt ha
    rcases hrec : ldl n (Matrix.of fun i j =>
        A i.succ j.succ - A i.succ 0 * A j.succ 0 / A 0 0) with _ | Ld1
    · rw [hrec] at h
      cases h
    obtain ⟨L1, d1⟩ := Ld1
    rw [hrec] at h
    simp only [Option.some.injEq, Prod.mk.injEq] at h
    obtain ⟨hL, hd2⟩ := h
    subst hL
    subst hd2
    have hSsym : (Matrix.of fun i j =>
        A i.succ j.succ - A i.succ 0 * A j.succ 0 / A 0 0 :
          Matrix (Fin n) (Fin n) ℚ).IsSymm := by
      refine Matrix.IsSymm.ext ?_
      intro i j
      simp only [Matrix.of_apply]
      rw [hA.apply i.succ j.succ]
      ring
    obtain ⟨h1, hlow, hd, hprod⟩ := ih _ L1 d1 hSsym hrec
    refine ⟨?_, ?_, ?_, ?_⟩
    · intro i
      refine Fin.cases ?_ (fun i2 => ?_) i
      · simp
      · simpa using h1 i2
    · intro i j hij
      rcases Fin.eq_zero_or_eq_succ j with rfl | ⟨j2, rfl⟩
      · exact absurd hij (Fin.not_lt_zero i)
      rcases Fin.eq_zero_or_eq_succ i with rfl | ⟨i2, rfl⟩
      · simp
      · have hij2 : i2 < j2 := by
          rwa [Fin.succ_lt_succ_iff] at hij
        simpa using hlow i2 j2 hij2
    · intro i
      refine Fin.cases ?_ (fun i2 => ?_) i
      · simpa using ha
      · simpa using hd i2
    · ext i j
      rw [mulDiagMulT_apply]
      rcases Fin.eq_zero_or_eq_succ i with rfl | ⟨i2, rfl⟩ <;>
        rcases Fin.eq_zero_or_eq_succ j with rfl | ⟨j2, rfl⟩
      · rw [Fin.sum_univ_succ]
        simp
      · rw [Fin.sum_univ_succ]
        simp only [Matrix.of_apply, Fin.cons_zero, Fin.cons_succ, one_mul,
          zero_mul, mul_zero, Finset.sum_const_zero, add_zero]
        rw [mul_comm, div_mul_cancel₀ _ ha0]
        exact hA.apply 0 j2.succ
      · rw [Fin.sum_univ_succ]
        simp only [Matrix.of_apply, Fin.cons_zero, Fin.cons_succ, mul_one,
          zero_mul, mul_zero, Finset.sum_const_zero, add_zero]
        rw [div_mul_cancel₀ _ ha0]
      · have hSe := congrFun (congrFun hprod i2) j2
        rw [mulDiagMulT_apply] at hSe
        simp only [Matrix.of_apply] at hSe
        rw [Fin.sum_univ_succ]
        simp only [Matrix.of_apply, Fin.cons_zero, Fin.cons_succ]
        rw [hSe]
        field_simp

/-- A unit-lower-triangular `L·D·Lᵀ` decomposition with strictly positive
pivots makes the matrix positive definite. -/
theorem posDefQ_of_ldl {n : ℕ} (A L : Matrix (Fin n) (Fin n) ℚ)
    (d : Fin n → ℚ) (h1 : ∀ i, L i i = 1) (hlow : lowerTriangular L)
    (hd : ∀ i, 0 < d i) (hprod : L * Matrix.diagonal d * Lᵀ = A) :
    posDefQ A := by
  intro x hx
  have hdet : L.det = 1 := by
    rw [Matrix.det_of_lowerTriangular L ?_]
    · simp [h1]
    · intro i j hij
      exact hlow i j hij
  have hunit : IsUnit Lᵀ := by
    rw [Matrix.isUnit_iff_isUnit_det, Matrix.det_transpose, hdet]
    exact isUnit_one
  have hy : Lᵀ.mulVec x ≠ 0 := by
    intro h0
    apply hx
    apply Matrix.mulVec_injective_iff_isUnit.mpr hunit
    rw [h0, Matrix.mulVec_zero]
  subst hprod
  rw [← Matrix.mulVec_mulVec, ← Matrix.mulVec_mulVec,
    Matrix.dotProduct_mulVec, ← Matrix.mulVec_transpose]
  obtain ⟨k0, hk0⟩ := Function.ne_iff.mp hy
  show 0 < ∑ k, (Lᵀ.mulVec x) k * ((Matrix.diagonal d).mulVec (Lᵀ.mulVec x)) k
  refine Finset.sum_pos' ?_ ⟨k0, Finset.mem_univ k0, ?_⟩
  · intro k _
    rw [Matrix.mulVec_diagonal]
    nlinarith [hd k, mul_self_nonneg ((Lᵀ.mulVec x) k)]
  · rw [Matrix.mulVec_diagonal]
    nlinarith [hd k0, mul_self_pos.mpr hk0]

theorem sampleCov_isSymm {T N : ℕ} (R : Matrix (Fin T) (Fin N) ℚ) :
    (sampleCov R).IsSymm := by
  refine Matrix.IsSymm.ext ?_
  intro i j
  simp only [sampleCov, Matrix.of_apply]
  congr 1
  refine Finset.sum_congr rfl ?_
  intro t _
  ring

/-- C4: Whenever `l_matrix` succeeds on an available return table,
the factorised covariance matrix is positive definite — equivalently, by
contraposition, the factorisation fails (numpy's `LinAlgError`, the
spec's `NonPositiveDefiniteError`, surfaced to the caller since nothing
catches it) whenever the covariance matrix is not positive definite —
and the Cholesky factor `L·√diag(d)` is a real lower-triangular matrix
`C` with `C · Cᵀ` exactly equal to the covariance matrix. -/
theorem l_matrix_success_posdef_and_factor {T N : ℕ}
    (R : Matrix (Fin T) (Fin N) ℚ) (L : Matrix (Fin N) (Fin N) ℚ)
    (d : Fin N → ℚ) (h : l_matrix (some R) = .ok (L, d)) :
    posDefQ (sampleCov R) ∧
      ∃ C : Matrix (Fin N) (Fin N) ℝ, lowerTriangular C ∧
        C * Cᵀ = (sampleCov R).map (fun r => (r : ℝ)) := by
  have hstep : l_matrix (some R) = (match ldl N (sampleCov R) with
      | none => .error "Matrix is not positive definite"
      | some Ld => .ok Ld) := rfl
  rw [hstep] at h
  have hldl : ldl N (sampleCov R) = some (L, d) := by
    rcases hrec : ldl N (sampleCov R) with _ | Ld
    · rw [hrec] at h
      cases h
    · rw [hrec] at h
      cases h
      rfl
  obtain ⟨h1, hlow, hdpos, hprod⟩ :=
    ldl_spec N (sampleCov R) L d (sampleCov_isSymm R) hldl
  refine ⟨posDefQ_of_ldl _ L d h1 hlow hdpos hprod, ?_⟩
  refine ⟨L.map (fun r => (r : ℝ)) *
    Matrix.diagonal (fun i => Real.sqrt (d i)), ?_, ?_⟩
  · intro i j hij
    rw [Matrix.mul_diagonal, Matrix.map_apply, hlow i j hij]
    simp
  · have hSS : Matrix.diagonal (fun i => Real.sqrt (d i)) *
        (Matrix.diagonal (fun i => Real.sqrt (d i)))ᵀ =
        Matrix.diagonal (fun i => ((d i : ℚ) : ℝ)) := by
      have hsq : (fun i => Real.sqrt ((d i : ℚ) : ℝ) * Real.sqrt ((d i : ℚ) : ℝ)) =
          (fun i => ((d i : ℚ) : ℝ)) := by
        funext i
        exact Real.mul_self_sqrt (Rat.cast_nonneg.mpr (hdpos i).le)
      rw [Matrix.diagonal_transpose, Matrix.diagonal_mul_diagonal, hsq]
    have hml : ((L * Matrix.diagonal d * Lᵀ).map (fun r : ℚ => (r : ℝ))) =
        L.map (fun r : ℚ => (r : ℝ)) *
          Matrix.diagonal (fun i => ((d i : ℚ) : ℝ)) *
          (L.map (fun r : ℚ => (r : ℝ)))ᵀ := by
      ext i j
      rw [Matrix.map_apply, mulDiagMulT_apply, mulDiagMulT_apply]
      push_cast
      refine Finset.sum_congr rfl ?_
      intro k _
      rw [Matrix.map_apply, Matrix.map_apply]
    rw [Matrix.transpose_mul, Matrix.mul_assoc, ← Matrix.mul_assoc
      (Matrix.diagonal fun i => Real.sqrt (d i)), hSS, ← Matrix.mul_assoc,
      ← hprod, hml]

theorem ldl_zero (A : Matrix (Fin 0) (Fin 0) ℚ) :
    ldl 0 A = some (1, fun i => i.elim0) := rfl

theorem ldl_succ (n : ℕ) (A : Matrix (Fin (n + 1)) (Fin (n + 1)) ℚ) :
    ldl (n + 1) A = if A 0 0 ≤ 0 then none
    else match ldl n (Matrix.of fun i j =>
        A i.succ j.succ - A i.succ 0 * A j.succ 0 / A 0 0) with
      | none => none
      | some (L, d) =>
        some (Matrix.of (Fin.cons (Fin.cons 1 (fun _ => 0))
            (fun i => Fin.cons (A i.succ 0 / A 0 0) (fun j => L i j))),
          Fin.cons (A 0 0) d) := rfl

theorem ldl_one (a : ℚ) (ha : 0 < a) :
    ldl 1 !![a] = some (!![1], fun _ => a) := by
  have h0 : ¬ (!![a] 0 0 ≤ 0) := by simpa using not_le.mpr ha
  rw [ldl_succ, if_neg h0, ldl_zero]
  show some _ = _
  rw [Option.some.injEq, Prod.mk.injEq]
  refine ⟨?_, ?_⟩
  · ext i j
    fin_cases i
    fin_cases j
    simp
  · funext k
    fin_cases k
    simp

theorem ldl_one_fail (a : ℚ) (ha : a ≤ 0) : ldl 1 !![a] = none := by
  rw [ldl_succ, if_pos (by simpa using ha)]

theorem l_matrix_some_eval {T N : ℕ} (R : Matrix (Fin T) (Fin N) ℚ) :
    l_matrix (some R) = (match ldl N (sampleCov R) with
      | none => Except.error "Matrix is not positive definite"
      | some Ld => Except.ok Ld) := rfl

theorem sampleCov_one_two : sampleCov !![(1 : ℚ); 2] = !![(1 : ℚ) / 2] := by
  ext i j
  fin_cases i
  fin_cases j
  simp [sampleCov, stockMeanReturns, Fin.sum_univ_succ]
  norm_num

/-- Witness for `l_matrix_success_posdef_and_factor` on the two-row
single-asset return table `[[1], [2]]` (sample covariance `[[1/2]]`). -/
theorem l_matrix_success_posdef_and_factor_witness :
    l_matrix (some !![(1 : ℚ); 2]) =
        .ok (!![(1 : ℚ)], fun _ => (1 : ℚ) / 2) ∧
      (posDefQ (sampleCov !![(1 : ℚ); 2]) ∧
        ∃ C : Matrix (Fin 1) (Fin 1) ℝ, lowerTriangular C ∧
          C * Cᵀ = (sampleCov !![(1 : ℚ); 2]).map (fun r => (r : ℝ))) := by
  have hl : l_matrix (some !![(1 : ℚ); 2]) =
      .ok (!![(1 : ℚ)], fun _ => (1 : ℚ) / 2) := by
    rw [l_matrix_some_eval, sampleCov_one_two, ldl_one ((1 : ℚ) / 2) (by norm_num)]
  exact ⟨hl, l_matrix_success_posdef_and_factor !![(1 : ℚ); 2]
    !![(1 : ℚ)] (fun _ => (1 : ℚ) / 2) hl⟩

/-- C8 counterexample: The claim presupposes the engine runs on a
degenerate zero-covariance input, but on the single-asset zero-variance
return table `[[0], [0]]` — whose sample covariance matrix is exactly
`0` — the Cholesky factorisation raises (numpy `LinAlgError`: the zero
matrix is positive semi-definite but not positive definite), so
`simulating_scenarios` never produces a wealth trajectory there. -/
theorem l_matrix_fails_on_zero_covariance :
    sampleCov !![(0 : ℚ); 0] = 0 ∧
      l_matrix (some !![(0 : ℚ); 0]) =
        .error "Matrix is not positive definite" := by
  have hcov : sampleCov !![(0 : ℚ); 0] = (0 : Matrix (Fin 1) (Fin 1) ℚ) := by
    ext i j
    fin_cases i
    fin_cases j
    simp [sampleCov, stockMeanReturns, Fin.sum_univ_succ]
  have h0 : (0 : Matrix (Fin 1) (Fin 1) ℚ) = !![(0 : ℚ)] := by
    ext i j
    fin_cases i
    fin_cases j
    simp
  refine ⟨hcov, ?_⟩
  rw [l_matrix_some_eval, hcov, h0, ldl_one_fail 0 le_rfl]

/-- C8 amended: Since the code rejects a covariance matrix that is
exactly `0` (see the counterexample), the degenerate property is stated
of the path simulator applied with the zero transform `L = 0` — the
zero-volatility limit: every scenario's synthetic daily return equals the
mean-return vector exactly, the wealth trajectory is
`A·(1 + mean_portfolio_return)^t`, identical across all scenarios (the
right-hand side depends neither on the scenario index nor on the noise),
and with a single asset of zero mean every wealth value — terminal wealth
in particular — equals the starting amount exactly. -/
theorem zero_L_simulator_deterministic {N : ℕ} (D S : ℕ) (μ : Fin N → ℚ)
    (A : ℚ) (noise : Fin S → Matrix (Fin D) (Fin N) ℚ) (s : Fin S)
    (t : Fin D) :
    synthetic_returns μ D 0 (noise s) = returns_matrix μ D ∧
      simulating_scenarios D S μ 0 A noise t s =
        A * (1 + ∑ k, uniformWeights N k * μ k) ^ (t.val + 1) ∧
      (μ = 0 → simulating_scenarios D S μ 0 A noise t s = A) ∧
      (μ = 0 → ∀ hD : 0 < D,
        final_amount_vec D S μ 0 A noise hD s = A) := by
  have hsyn : synthetic_returns μ D 0 (noise s) = returns_matrix μ D := by
    ext i j
    simp [synthetic_returns, npInner, returns_matrix]
  have hm : ∀ u : Fin D, npInnerVec (uniformWeights N)
      (synthetic_returns μ D 0 (noise s)) u =
        ∑ k, uniformWeights N k * μ k := by
    intro u
    rw [hsyn]
    rfl
  have hwealth : ∀ t2 : Fin D, simulating_scenarios D S μ 0 A noise t2 s =
      A * (1 + ∑ k, uniformWeights N k * μ k) ^ (t2.val + 1) := by
    intro t2
    have he : ∀ k ∈ Finset.range (t2.val + 1),
        (if h : k < D then npInnerVec (uniformWeights N)
          (synthetic_returns μ D 0 (noise s)) ⟨k, h⟩ + 1 else 1) =
        1 + ∑ k2, uniformWeights N k2 * μ k2 := by
      intro k hk
      have hkD : k < D := lt_of_le_of_lt
        (Nat.lt_succ_iff.mp (Finset.mem_range.mp hk)) t2.isLt
      rw [dif_pos hkD, hm ⟨k, hkD⟩]
      ring
    show cumprodAux _ t2.val * A = _
    rw [cumprodAux_eq_prod, Finset.prod_congr rfl he, Finset.prod_const,
      Finset.card_range, mul_comm]
  refine ⟨hsyn, hwealth t, ?_, ?_⟩
  · intro hμ
    subst hμ
    rw [hwealth t]
    simp
  · intro hμ hD
    subst hμ
    show simulating_scenarios D S 0 0 A noise _ s = A
    rw [hwealth ⟨D - 1, Nat.sub_lt hD Nat.one_pos⟩]
    simp

/-- Witness for `zero_L_simulator_deterministic`: one scenario, one day,
one asset, zero mean returns, zero transform, starting amount 100. -/
theorem zero_L_simulator_deterministic_witness :
    simulating_scenarios 1 1 (0 : Fin 1 → ℚ) 0 100
        (fun _ => (0 : Matrix (Fin 1) (Fin 1) ℚ)) 0 0 = 100 ∧
      final_amount_vec 1 1 (0 : Fin 1 → ℚ) 0 100
        (fun _ => (0 : Matrix (Fin 1) (Fin 1) ℚ)) Nat.one_pos 0 = 100 := by
  have h := zero_L_simulator_deterministic 1 1 (0 : Fin 1 → ℚ) 100
    (fun _ => (0 : Matrix (Fin 1) (Fin 1) ℚ)) 0 0
  exact ⟨h.2.2.1 rfl, h.2.2.2 rfl Nat.one_pos⟩

end MC
